import Mathlib

/-!
Shallow embedding of the DFA (Dynamic Fund Averaging) strategy from
`src/DFAStrategy.py`, and proofs checking the natural-language
specification against it.

Modelling conventions:
* Python floats are modelled as exact rationals (`ℚ`).
* `datetime.date` values are modelled as integer day numbers (`ℤ`);
  `(d2 - d1).days` becomes `d2 - d1`.
* Python's `round(x, 4)` (banker's rounding, half to even) is modelled
  exactly by `round4` below.
* The backtrader SMA indicator (`self.ma120[0]`) is the arithmetic mean of
  the most recent `ma_period` closes, undefined (`none`, the NaN case that
  `pd.isna` detects) until that many closes exist.  The engine state keeps
  the list of closes seen so far, most recent first.
* The broker's free cash (`self.broker.getcash()`) is an external reading;
  each bar carries the value the strategy would read on that bar.
* The strategy object's mutable attributes become the `StratState` record;
  one call of `next()` becomes the pure step `nextBar`.
-/

namespace DFA

/-- Strategy parameters, from the `params` tuple of `DFAStrategy`
(`printlog` only affects printing and is omitted). -/
structure Params where
  base_cash : ℚ
  ma_period : ℕ
  investment_interval : ℤ
  target_return : ℚ
  sell_ratio : ℚ
  profit_taking_cooldown : ℤ
deriving DecidableEq

/-- One record of `investment_history` (the dict appended in
`execute_investment`). -/
structure InvestmentEvent where
  date : ℤ
  price : ℚ
  ma120 : ℚ
  deviation : ℚ
  multiplier : ℚ
  amount : ℚ
  shares : ℚ
deriving DecidableEq

/-- One record of `profit_history` (the dict appended in
`check_profit_taking`). -/
structure ExitEvent where
  date : ℤ
  price : ℚ
  return_percent : ℚ
  shares_sold : ℚ
  amount_received : ℚ
  cost_of_sold : ℚ
  profit : ℚ
deriving DecidableEq

/-- One input bar: its date, its close, and the broker's free-cash reading
the strategy would get on that bar. -/
structure Bar where
  date : ℤ
  close : ℚ
  cash : ℚ
deriving DecidableEq

/-- The mutable attributes of the `DFAStrategy` instance.  `closes` (most
recent first) stands for the price series feeding the SMA indicator. -/
structure StratState where
  closes : List ℚ
  investment_count : ℕ
  last_investment_date : Option ℤ
  last_profit_taking_date : Option ℤ
  investment_history : List InvestmentEvent
  total_invested : ℚ
  total_shares : ℚ
  profit_history : List ExitEvent
  total_sell_amount : ℚ
deriving DecidableEq

/-- Round a rational to the nearest integer, halves to the even neighbour:
Python 3's `round` on floats (exact on our rational model). -/
def roundHalfEven (q : ℚ) : ℤ :=
  if q - ⌊q⌋ < 1/2 then ⌊q⌋
  else if 1/2 < q - ⌊q⌋ then ⌊q⌋ + 1
  else if ⌊q⌋ % 2 = 0 then ⌊q⌋ else ⌊q⌋ + 1

/-- Python's `round(x, 4)`. -/
def round4 (q : ℚ) : ℚ := (roundHalfEven (q * 10000) : ℚ) / 10000

/-- `get_investment_multiplier` of `DFAStrategy` (lines 169-184). -/
def get_investment_multiplier (deviation : ℚ) : ℚ :=
  if deviation ≤ -20 then 2.2
  else if deviation ≤ -10 then 1.8
  else if deviation ≤ 0 then 1.4
  else if deviation ≤ 5 then 1
  else if deviation ≤ 15 then 0.5
  else if deviation ≤ 25 then 0.2
  else 0

/-- The SMA indicator value on the current bar: mean of the most recent
`maPeriod` closes, `none` while fewer closes exist (backtrader's NaN). -/
def smaValue (maPeriod : ℕ) (closes : List ℚ) : Option ℚ :=
  if maPeriod ≤ closes.length then some ((closes.take maPeriod).sum / maPeriod)
  else none

/-- `deviation = (current_price - ma120_value) / ma120_value * 100`
(line 68). -/
def deviationOf (price ma : ℚ) : ℚ := (price - ma) / ma * 100

/-- The investment amount after the cash clip of lines 74-78:
`base_cash * multiplier`, replaced by the broker cash when it exceeds it. -/
def availableAmount (p : Params) (cash price ma : ℚ) : ℚ :=
  if cash < p.base_cash * get_investment_multiplier (deviationOf price ma)
  then cash
  else p.base_cash * get_investment_multiplier (deviationOf price ma)

/-- The state update of a completed purchase (lines 86-107):
`actual_invested = size * current_price` is added to `total_invested`,
`size` to `total_shares`, the counter and the cadence date advance, and one
record is appended to `investment_history`. -/
def buyUpdate (s : StratState) (date : ℤ) (price ma size : ℚ) : StratState :=
  { s with
    total_invested := s.total_invested + size * price
    total_shares := s.total_shares + size
    investment_count := s.investment_count + 1
    last_investment_date := some date
    investment_history := s.investment_history ++
      [{ date := date, price := price, ma120 := ma,
         deviation := deviationOf price ma,
         multiplier := get_investment_multiplier (deviationOf price ma),
         amount := size * price, shares := size }] }

/-- `execute_investment` (lines 58-107): skip when the SMA is not ready or
zero; clip the requested amount to broker cash; buy
`size = round(amount / price, 4)` when both the amount and the size are
positive, else do nothing. -/
def execute_investment (p : Params) (date : ℤ) (price cash : ℚ)
    (s : StratState) : StratState :=
  match smaValue p.ma_period s.closes with
  | none => s
  | some ma =>
    if ma = 0 then s
    else if 0 < availableAmount p cash price ma then
      if 0 < round4 (availableAmount p cash price ma / price) then
        buyUpdate s date price ma (round4 (availableAmount p cash price ma / price))
      else s
    else s

/-- `current_return` of line 123. -/
def currentReturn (s : StratState) (price : ℚ) : ℚ :=
  (s.total_shares * price - s.total_invested) / s.total_invested * 100

/-- The cooldown test of lines 126-129: blocked when a previous
profit-taking date exists and lies fewer than `profit_taking_cooldown` days
back. -/
def cooldownBlocked (p : Params) (date : ℤ) (s : StratState) : Bool :=
  match s.last_profit_taking_date with
  | some d0 => decide (date - d0 < p.profit_taking_cooldown)
  | none => false

/-- The state update of an executed partial sale (lines 137-162). -/
def sellUpdate (s : StratState) (date : ℤ) (price ss : ℚ) : StratState :=
  { s with
    total_shares := s.total_shares - ss
    total_invested := s.total_invested - ss / s.total_shares * s.total_invested
    total_sell_amount := s.total_sell_amount + ss * price
    last_profit_taking_date := some date
    profit_history := s.profit_history ++
      [{ date := date, price := price,
         return_percent := currentReturn s price,
         shares_sold := ss, amount_received := ss * price,
         cost_of_sold := ss / s.total_shares * s.total_invested,
         profit := ss * price - ss / s.total_shares * s.total_invested }] }

/-- `check_profit_taking` (lines 114-162): only with a positive position
and positive recorded cost, outside the cooldown window, and with the
return at or above the target, sell `round(total_shares * sell_ratio, 4)`
units when that is positive. -/
def check_profit_taking (p : Params) (date : ℤ) (price : ℚ)
    (s : StratState) : StratState :=
  if 0 < s.total_shares then
    if 0 < s.total_invested then
      if cooldownBlocked p date s then s
      else if p.target_return ≤ currentReturn s price then
        if 0 < round4 (s.total_shares * p.sell_ratio) then
          sellUpdate s date price (round4 (s.total_shares * p.sell_ratio))
        else s
      else s
    else s
  else s

/-- The state as the current bar's close has been fed to the indicator. -/
def afterClose (s : StratState) (b : Bar) : StratState :=
  { s with closes := b.close :: s.closes }

/-- The state after the profit-taking check of the current bar
(`next()` runs `check_profit_taking` first, line 47). -/
def afterProfit (p : Params) (s : StratState) (b : Bar) : StratState :=
  check_profit_taking p b.date b.close (afterClose s b)

/-- One call of `next()` (lines 43-56): profit taking first, then the
cadence gate, then (when due) `execute_investment`. -/
def nextBar (p : Params) (s : StratState) (b : Bar) : StratState :=
  match (afterProfit p s b).last_investment_date with
  | none => execute_investment p b.date b.close b.cash (afterProfit p s b)
  | some d =>
    if p.investment_interval ≤ b.date - d then
      execute_investment p b.date b.close b.cash (afterProfit p s b)
    else afterProfit p s b

/-- The fresh strategy state of `__init__` (lines 23-41). -/
def initState : StratState :=
  { closes := []
    investment_count := 0
    last_investment_date := none
    last_profit_taking_date := none
    investment_history := []
    total_invested := 0
    total_shares := 0
    profit_history := []
    total_sell_amount := 0 }

/-- Run the strategy over a chronological bar sequence from a fresh state. -/
def processBars (p : Params) (bars : List Bar) : StratState :=
  bars.foldl (nextBar p) initState

/-- A rational that is a whole multiple of `1/10000` — the form every value
`round(_, 4)` produces, hence the form `total_shares` always has. -/
def Quantized4 (q : ℚ) : Prop := ∃ n : ℤ, q * 10000 = (n : ℚ)

/-- The ledger bounds of the PositionState data model, together with the
quantization of `total_shares` that the 4-decimal rounding enforces. -/
def LedgerInv (s : StratState) : Prop :=
  0 ≤ s.total_shares ∧ 0 ≤ s.total_invested ∧ 0 ≤ s.total_sell_amount ∧
  (s.total_invested = 0 ↔ s.total_shares = 0) ∧ Quantized4 s.total_shares

/-! Concrete parameterisations and states used to instantiate the theorems
on explicit inputs. -/

/-- Parameters for a concrete one-bar run: base cash 1000, a 1-bar moving
average, target return 50, full liquidation ratio 1. -/
def pW : Params := ⟨1000, 1, 14, 50, 1, 30⟩

/-- A single bar: day 0, close 100, broker cash 100000. -/
def bW : Bar := ⟨0, 100, 100000⟩

/-- The state the engine reaches after processing `[bW]` with `pW`:
deviation 0 gives multiplier 1.4, so 1400 is deployed for 14 units. -/
def sW : StratState :=
  ⟨[100], 1, some 0, none, [⟨0, 100, 100, 0, 1.4, 1400, 14⟩], 1400, 14, [], 0⟩

/-- Parameters for exercising the profit-taking mechanics: target 50,
ratio 0.5. -/
def pX : Params := ⟨500, 120, 14, 50, 0.5, 30⟩

/-- A holding state: 10 units at a recorded cost of 1000. -/
def sX : StratState := ⟨[], 1, some 0, none, [], 1000, 10, [], 0⟩

/-- Parameters for the sizing scenario: base cash 1000 so that the
requested amount is 1000 against free cash 300. -/
def pC6 : Params := ⟨1000, 1, 14, 75, 0.5, 30⟩

/-- A fresh state whose 1-bar moving average reads 28. -/
def sC6 : StratState := ⟨[28], 0, none, none, [], 0, 0, [], 0⟩

/-- The default parameters of the source (`base_cash` 70, interval 14,
target 75, ratio 0.5, cooldown 30) with a 1-bar moving average. -/
def pC9 : Params := ⟨70, 1, 14, 75, 0.5, 30⟩

/-- A malformed bar sequence: the second bar's date precedes the first's. -/
def barsC9 : List Bar := [⟨10, 100, 1000⟩, ⟨5, 100, 1000⟩]

/-- The state after the first bar of `barsC9`: 98 deployed for 0.98
units. -/
def sC9mid : StratState :=
  ⟨[100], 1, some 10, none, [⟨10, 100, 100, 0, 1.4, 98, 0.98⟩], 98, 0.98,
    [], 0⟩

/-- The state after both bars of `barsC9`: the out-of-order second bar is
silently processed (its day difference −5 fails the cadence gate). -/
def sC9 : StratState :=
  ⟨[100, 100], 1, some 10, none, [⟨10, 100, 100, 0, 1.4, 98, 0.98⟩], 98,
    0.98, [], 0⟩

/-! ### Facts about the rounding primitive -/

theorem roundHalfEven_intCast (n : ℤ) : roundHalfEven (n : ℚ) = n := by
  unfold roundHalfEven
  rw [Int.floor_intCast, sub_self]
  norm_num

theorem floor_le_roundHalfEven (q : ℚ) : ⌊q⌋ ≤ roundHalfEven q := by
  unfold roundHalfEven
  split_ifs <;> omega

theorem roundHalfEven_le_floor_add_one (q : ℚ) : roundHalfEven q ≤ ⌊q⌋ + 1 := by
  unfold roundHalfEven
  split_ifs <;> omega

theorem roundHalfEven_le_of_le (q : ℚ) (n : ℤ) (h : q ≤ (n : ℚ)) :
    roundHalfEven q ≤ n := by
  have hf : ⌊q⌋ ≤ n := by
    have := Int.floor_le_floor h
    rwa [Int.floor_intCast] at this
  rcases lt_or_eq_of_le hf with hlt | heq
  · have := roundHalfEven_le_floor_add_one q
    omega
  · have hq : q = (n : ℚ) := by
      have h1 : (n : ℚ) ≤ q := by
        have := Int.floor_le q
        rw [heq] at this
        exact this
      linarith
    rw [hq, roundHalfEven_intCast]

theorem roundHalfEven_nonneg (q : ℚ) (h : 0 ≤ q) : 0 ≤ roundHalfEven q := by
  have h0 : 0 ≤ ⌊q⌋ := Int.floor_nonneg.mpr h
  have := floor_le_roundHalfEven q
  omega

theorem round4_quantized (q : ℚ) : Quantized4 (round4 q) := by
  refine ⟨roundHalfEven (q * 10000), ?_⟩
  unfold round4
  field_simp

theorem quantized4_zero : Quantized4 0 := ⟨0, by norm_num⟩

theorem Quantized4.add {a b : ℚ} (ha : Quantized4 a) (hb : Quantized4 b) :
    Quantized4 (a + b) := by
  obtain ⟨m, hm⟩ := ha
  obtain ⟨n, hn⟩ := hb
  exact ⟨m + n, by push_cast; linarith⟩

theorem Quantized4.sub {a b : ℚ} (ha : Quantized4 a) (hb : Quantized4 b) :
    Quantized4 (a - b) := by
  obtain ⟨m, hm⟩ := ha
  obtain ⟨n, hn⟩ := hb
  exact ⟨m - n, by push_cast; linarith⟩

theorem round4_eq_self {q : ℚ} (h : Quantized4 q) : round4 q = q := by
  obtain ⟨n, hn⟩ := h
  unfold round4
  rw [hn, roundHalfEven_intCast]
  have : q = (n : ℚ) / 10000 := by
    field_simp at hn ⊢
    linarith
  linarith

theorem round4_le_of_le {q s : ℚ} (hs : Quantized4 s) (h : q ≤ s) :
    round4 q ≤ s := by
  obtain ⟨n, hn⟩ := hs
  have h1 : q * 10000 ≤ (n : ℚ) := by nlinarith
  have h2 : roundHalfEven (q * 10000) ≤ n := roundHalfEven_le_of_le _ _ h1
  unfold round4
  rw [div_le_iff₀ (by norm_num : (0:ℚ) < 10000)]
  calc (roundHalfEven (q * 10000) : ℚ) ≤ (n : ℚ) := by exact_mod_cast h2
    _ = s * 10000 := hn.symm

theorem round4_nonneg {q : ℚ} (h : 0 ≤ q) : 0 ≤ round4 q := by
  have h1 : (0:ℚ) ≤ q * 10000 := by positivity
  have h2 : 0 ≤ roundHalfEven (q * 10000) := roundHalfEven_nonneg _ h1
  unfold round4
  positivity

/-! ### Structural case analyses of the three mutating operations -/

theorem check_profit_taking_cases (p : Params) (d : ℤ) (price : ℚ)
    (s : StratState) :
    check_profit_taking p d price s = s ∨
    (0 < s.total_shares ∧ 0 < s.total_invested ∧
     cooldownBlocked p d s = false ∧
     p.target_return ≤ currentReturn s price ∧
     0 < round4 (s.total_shares * p.sell_ratio) ∧
     check_profit_taking p d price s =
       sellUpdate s d price (round4 (s.total_shares * p.sell_ratio))) := by
  unfold check_profit_taking
  by_cases h1 : 0 < s.total_shares
  · rw [if_pos h1]
    by_cases h2 : 0 < s.total_invested
    · rw [if_pos h2]
      by_cases h3 : cooldownBlocked p d s = true
      · rw [if_pos h3]
        exact Or.inl rfl
      · rw [if_neg h3]
        by_cases h4 : p.target_return ≤ currentReturn s price
        · rw [if_pos h4]
          by_cases h5 : 0 < round4 (s.total_shares * p.sell_ratio)
          · rw [if_pos h5]
            exact Or.inr ⟨h1, h2, by simpa using h3, h4, h5, rfl⟩
          · rw [if_neg h5]
            exact Or.inl rfl
        · rw [if_neg h4]
          exact Or.inl rfl
    · rw [if_neg h2]
      exact Or.inl rfl
  · rw [if_neg h1]
    exact Or.inl rfl

theorem execute_investment_cases (p : Params) (d : ℤ) (price cash : ℚ)
    (s : StratState) :
    execute_investment p d price cash s = s ∨
    ∃ ma, smaValue p.ma_period s.closes = some ma ∧ ¬ ma = 0 ∧
      0 < availableAmount p cash price ma ∧
      0 < round4 (availableAmount p cash price ma / price) ∧
      execute_investment p d price cash s =
        buyUpdate s d price ma
          (round4 (availableAmount p cash price ma / price)) := by
  unfold execute_investment
  cases h : smaValue p.ma_period s.closes with
  | none => exact Or.inl rfl
  | some ma =>
    dsimp only
    by_cases h0 : ma = 0
    · rw [if_pos h0]
      exact Or.inl rfl
    · rw [if_neg h0]
      by_cases ha : 0 < availableAmount p cash price ma
      · rw [if_pos ha]
        by_cases hs : 0 < round4 (availableAmount p cash price ma / price)
        · rw [if_pos hs]
          exact Or.inr ⟨ma, rfl, h0, ha, hs, rfl⟩
        · rw [if_neg hs]
          exact Or.inl rfl
      · rw [if_neg ha]
        exact Or.inl rfl

theorem nextBar_cases (p : Params) (s : StratState) (b : Bar) :
    (((afterProfit p s b).last_investment_date = none ∨
       ∃ dl, (afterProfit p s b).last_investment_date = some dl ∧
         p.investment_interval ≤ b.date - dl) ∧
      nextBar p s b =
        execute_investment p b.date b.close b.cash (afterProfit p s b)) ∨
    ((∃ dl, (afterProfit p s b).last_investment_date = some dl ∧
        b.date - dl < p.investment_interval) ∧
      nextBar p s b = afterProfit p s b) := by
  unfold nextBar
  cases h : (afterProfit p s b).last_investment_date with
  | none => exact Or.inl ⟨Or.inl rfl, rfl⟩
  | some dl =>
    dsimp only
    by_cases hd : p.investment_interval ≤ b.date - dl
    · rw [if_pos hd]
      exact Or.inl ⟨Or.inr ⟨dl, rfl, hd⟩, rfl⟩
    · rw [if_neg hd]
      exact Or.inr ⟨⟨dl, rfl, by linarith [not_le.mp hd]⟩, rfl⟩

theorem check_profit_taking_investment_fields (p : Params) (d : ℤ)
    (price : ℚ) (s : StratState) :
    (check_profit_taking p d price s).closes = s.closes ∧
    (check_profit_taking p d price s).investment_count = s.investment_count ∧
    (check_profit_taking p d price s).last_investment_date =
      s.last_investment_date ∧
    (check_profit_taking p d price s).investment_history =
      s.investment_history := by
  rcases check_profit_taking_cases p d price s with h | ⟨_, _, _, _, _, h⟩ <;>
    rw [h] <;> exact ⟨rfl, rfl, rfl, rfl⟩

theorem execute_investment_exit_fields (p : Params) (d : ℤ) (price cash : ℚ)
    (s : StratState) :
    (execute_investment p d price cash s).closes = s.closes ∧
    (execute_investment p d price cash s).last_profit_taking_date =
      s.last_profit_taking_date ∧
    (execute_investment p d price cash s).profit_history = s.profit_history ∧
    (execute_investment p d price cash s).total_sell_amount =
      s.total_sell_amount := by
  rcases execute_investment_cases p d price cash s with h | ⟨ma, _, _, _, _, h⟩ <;>
    rw [h] <;> exact ⟨rfl, rfl, rfl, rfl⟩

/-! ### Claim C1 -/

set_option maxHeartbeats 1000000 in
/-- C1: `get_investment_multiplier` is total over ℚ and returns exactly the
tiered multiplier of the spec's table (2.2 for deviation ≤ −20, 1.8 on
(−20, −10], 1.4 on (−10, 0], 1.0 on (0, 5], 0.5 on (5, 15], 0.2 on
(15, 25], 0.0 above 25); it yields 2.2 at exactly −20, 0.2 at exactly 25,
0.0 at 25.0001, and it is non-increasing (hence piecewise constant with the
listed values) in the deviation. -/
theorem C1_multiplier_table :
    (∀ d : ℚ,
      (d ≤ -20 → get_investment_multiplier d = 2.2) ∧
      (-20 < d → d ≤ -10 → get_investment_multiplier d = 1.8) ∧
      (-10 < d → d ≤ 0 → get_investment_multiplier d = 1.4) ∧
      (0 < d → d ≤ 5 → get_investment_multiplier d = 1) ∧
      (5 < d → d ≤ 15 → get_investment_multiplier d = 0.5) ∧
      (15 < d → d ≤ 25 → get_investment_multiplier d = 0.2) ∧
      (25 < d → get_investment_multiplier d = 0)) ∧
    get_investment_multiplier (-20) = 2.2 ∧
    get_investment_multiplier 25 = 0.2 ∧
    get_investment_multiplier 25.0001 = 0 ∧
    (∀ d e : ℚ, d ≤ e →
      get_investment_multiplier e ≤ get_investment_multiplier d) := by
  refine ⟨fun d => ⟨?_, ?_, ?_, ?_, ?_, ?_, ?_⟩, ?_, ?_, ?_, fun d e h => ?_⟩
  all_goals unfold get_investment_multiplier
  all_goals try intros
  all_goals split_ifs <;> first | rfl | linarith

/-- Invariance of a predicate along a fold of `nextBar`. -/
theorem foldl_nextBar_inv (p : Params) (P : StratState → Prop) :
    ∀ (bars : List Bar) (s : StratState), P s →
      (∀ s1 b, b ∈ bars → P s1 → P (nextBar p s1 b)) →
      P (bars.foldl (nextBar p) s) := by
  intro bars
  induction bars with
  | nil => intro s hs _; exact hs
  | cons b bs ih =>
    intro s hs hstep
    exact ih (nextBar p s b) (hstep s b (by simp) hs)
      (fun s1 b1 hb1 => hstep s1 b1 (by simp [hb1]))

/-! ### Per-step preservation helpers -/

theorem afterClose_count (s : StratState) (b : Bar) :
    (afterClose s b).investment_count = s.investment_count := rfl

theorem nextBar_count_len (p : Params) (s1 : StratState) (b : Bar)
    (h1 : s1.investment_count = s1.investment_history.length) :
    (nextBar p s1 b).investment_count =
      (nextBar p s1 b).investment_history.length := by
  have hf := check_profit_taking_investment_fields p b.date b.close
    (afterClose s1 b)
  have hap : (afterProfit p s1 b).investment_count =
      (afterProfit p s1 b).investment_history.length := by
    unfold afterProfit
    rw [hf.2.1, hf.2.2.2]
    exact h1
  rcases nextBar_cases p s1 b with ⟨_, hn⟩ | ⟨_, hn⟩
  · rw [hn]
    rcases execute_investment_cases p b.date b.close b.cash
      (afterProfit p s1 b) with he | ⟨ma, _, _, _, _, he⟩
    · rw [he]; exact hap
    · rw [he]
      simp only [buyUpdate, List.length_append, List.length_cons,
        List.length_nil]
      omega
  · rw [hn]; exact hap

/-- The running cost basis always equals investment amounts minus exited
cost, exactly (so in particular within any floating tolerance). -/
theorem cost_basis_ledger (p : Params) (bars : List Bar) :
    (processBars p bars).total_invested =
      ((processBars p bars).investment_history.map
        (fun e => e.amount)).sum -
      ((processBars p bars).profit_history.map
        (fun e => e.cost_of_sold)).sum := by
  unfold processBars
  refine foldl_nextBar_inv p
    (fun s => s.total_invested =
      (s.investment_history.map (fun e => e.amount)).sum -
      (s.profit_history.map (fun e => e.cost_of_sold)).sum)
    bars initState (by simp [initState]) ?_
  intro s1 b _ h1
  have hcheck : ∀ s2, s2.total_invested =
      (s2.investment_history.map (fun e => e.amount)).sum -
      (s2.profit_history.map (fun e => e.cost_of_sold)).sum →
      ∀ d price, (check_profit_taking p d price s2).total_invested =
        ((check_profit_taking p d price s2).investment_history.map
          (fun e => e.amount)).sum -
        ((check_profit_taking p d price s2).profit_history.map
          (fun e => e.cost_of_sold)).sum := by
    intro s2 h2 d price
    rcases check_profit_taking_cases p d price s2 with h | ⟨_, _, _, _, _, h⟩
    · rw [h]; exact h2
    · rw [h]
      simp only [sellUpdate, List.map_append, List.map_cons, List.map_nil,
        List.sum_append, List.sum_cons, List.sum_nil]
      linarith
  have hexec : ∀ s2, s2.total_invested =
      (s2.investment_history.map (fun e => e.amount)).sum -
      (s2.profit_history.map (fun e => e.cost_of_sold)).sum →
      (execute_investment p b.date b.close b.cash s2).total_invested =
        ((execute_investment p b.date b.close b.cash s2).investment_history.map
          (fun e => e.amount)).sum -
        ((execute_investment p b.date b.close b.cash s2).profit_history.map
          (fun e => e.cost_of_sold)).sum := by
    intro s2 h2
    rcases execute_investment_cases p b.date b.close b.cash s2 with
      h | ⟨ma, _, _, _, _, h⟩
    · rw [h]; exact h2
    · rw [h]
      simp only [buyUpdate, List.map_append, List.map_cons, List.map_nil,
        List.sum_append, List.sum_cons, List.sum_nil]
      linarith
  have hap : (afterProfit p s1 b).total_invested =
      ((afterProfit p s1 b).investment_history.map (fun e => e.amount)).sum -
      ((afterProfit p s1 b).profit_history.map
        (fun e => e.cost_of_sold)).sum :=
    hcheck (afterClose s1 b) h1 b.date b.close
  rcases nextBar_cases p s1 b with ⟨_, hn⟩ | ⟨_, hn⟩
  · rw [hn]; exact hexec _ hap
  · rw [hn]; exact hap

theorem chain'_append_single {α : Type} (R : α → α → Prop) (l : List α)
    (a : α) (hl : List.Chain' R l)
    (h : ∀ x, l.getLast? = some x → R x a) : List.Chain' R (l ++ [a]) := by
  rw [List.chain'_append]
  refine ⟨hl, List.chain'_singleton a, ?_⟩
  intro x hx y hy
  simp only [List.head?_cons, Option.mem_def, Option.some.injEq] at hy
  subst hy
  exact h x hx

theorem cooldownBlocked_false {p : Params} {d : ℤ} {s : StratState}
    (h : cooldownBlocked p d s = false) :
    ∀ d0, s.last_profit_taking_date = some d0 →
      p.profit_taking_cooldown ≤ d - d0 := by
  intro d0 hd0
  unfold cooldownBlocked at h
  rw [hd0] at h
  simp only [decide_eq_false_iff_not, not_lt] at h
  exact h

/-- The dates recorded in `investment_history` track
`last_investment_date`, and consecutive records are at least
`investment_interval` days apart. -/
theorem cadence_ledger (p : Params) (bars : List Bar) :
    (processBars p bars).last_investment_date =
      ((processBars p bars).investment_history.getLast?).map
        (fun e => e.date) ∧
    List.Chain' (fun e1 e2 => p.investment_interval ≤ e2.date - e1.date)
      (processBars p bars).investment_history := by
  unfold processBars
  refine foldl_nextBar_inv p
    (fun s => s.last_investment_date =
        (s.investment_history.getLast?).map (fun e => e.date) ∧
      List.Chain' (fun e1 e2 => p.investment_interval ≤ e2.date - e1.date)
        s.investment_history)
    bars initState ⟨rfl, List.chain'_nil⟩ ?_
  intro s1 b _ h1
  have hf := check_profit_taking_investment_fields p b.date b.close
    (afterClose s1 b)
  have hap : (afterProfit p s1 b).last_investment_date =
      ((afterProfit p s1 b).investment_history.getLast?).map
        (fun e => e.date) ∧
      List.Chain' (fun e1 e2 => p.investment_interval ≤ e2.date - e1.date)
        (afterProfit p s1 b).investment_history := by
    unfold afterProfit
    rw [hf.2.2.1, hf.2.2.2]
    exact h1
  rcases nextBar_cases p s1 b with ⟨hgate, hn⟩ | ⟨_, hn⟩
  · rw [hn]
    rcases execute_investment_cases p b.date b.close b.cash
      (afterProfit p s1 b) with he | ⟨ma, _, _, _, _, he⟩
    · rw [he]; exact hap
    · rw [he]
      constructor
      · simp only [buyUpdate]
        simp
      · simp only [buyUpdate]
        apply chain'_append_single _ _ _ hap.2
        intro x hx
        rcases hgate with hnone | ⟨dl, hdl, hle⟩
        · rw [hap.1, hx] at hnone
          simp at hnone
        · rw [hap.1, hx] at hdl
          simp at hdl
          show p.investment_interval ≤ b.date - x.date
          omega
  · rw [hn]; exact hap

/-- The dates recorded in `profit_history` track
`last_profit_taking_date`, and consecutive records are at least
`profit_taking_cooldown` days apart. -/
theorem cooldown_ledger (p : Params) (bars : List Bar) :
    (processBars p bars).last_profit_taking_date =
      ((processBars p bars).profit_history.getLast?).map (fun e => e.date) ∧
    List.Chain' (fun e1 e2 => p.profit_taking_cooldown ≤ e2.date - e1.date)
      (processBars p bars).profit_history := by
  unfold processBars
  refine foldl_nextBar_inv p
    (fun s => s.last_profit_taking_date =
        (s.profit_history.getLast?).map (fun e => e.date) ∧
      List.Chain' (fun e1 e2 => p.profit_taking_cooldown ≤ e2.date - e1.date)
        s.profit_history)
    bars initState ⟨rfl, List.chain'_nil⟩ ?_
  intro s1 b _ h1
  have hap : (afterProfit p s1 b).last_profit_taking_date =
      ((afterProfit p s1 b).profit_history.getLast?).map (fun e => e.date) ∧
      List.Chain' (fun e1 e2 => p.profit_taking_cooldown ≤ e2.date - e1.date)
        (afterProfit p s1 b).profit_history := by
    unfold afterProfit
    rcases check_profit_taking_cases p b.date b.close (afterClose s1 b) with
      h | ⟨_, _, hcool, _, _, h⟩
    · rw [h]; exact h1
    · rw [h]
      constructor
      · simp only [sellUpdate]
        simp
      · simp only [sellUpdate]
        apply chain'_append_single _ _ _ h1.2
        intro x hx
        have := cooldownBlocked_false hcool x.date
        apply this
        show s1.last_profit_taking_date = some x.date
        rw [h1.1, hx]
        rfl
  rcases nextBar_cases p s1 b with ⟨_, hn⟩ | ⟨_, hn⟩
  · rw [hn]
    have hex := execute_investment_exit_fields p b.date b.close b.cash
      (afterProfit p s1 b)
    rw [hex.2.1, hex.2.2.1]
    exact hap
  · rw [hn]; exact hap

theorem ledgerInv_check (p : Params) (d : ℤ) (price : ℚ) (s : StratState)
    (hr : p.sell_ratio ≤ 1) (hp : 0 < price) (hinv : LedgerInv s) :
    LedgerInv (check_profit_taking p d price s) := by
  rcases check_profit_taking_cases p d price s with h | ⟨hs, hc, _, _, hss, h⟩
  · rw [h]; exact hinv
  · rw [h]
    obtain ⟨h0s, h0c, h0a, hiff, hq⟩ := hinv
    have hle : round4 (s.total_shares * p.sell_ratio) ≤ s.total_shares := by
      apply round4_le_of_le hq
      nlinarith
    have hS : s.total_shares ≠ 0 := ne_of_gt hs
    have hform : s.total_invested -
        round4 (s.total_shares * p.sell_ratio) / s.total_shares *
          s.total_invested =
        s.total_invested *
          (s.total_shares - round4 (s.total_shares * p.sell_ratio)) /
          s.total_shares := by
      field_simp
      ring
    refine ⟨?_, ?_, ?_, ?_, ?_⟩
    · show 0 ≤ s.total_shares - round4 (s.total_shares * p.sell_ratio)
      linarith
    · show 0 ≤ s.total_invested -
        round4 (s.total_shares * p.sell_ratio) / s.total_shares *
          s.total_invested
      rw [hform]
      exact div_nonneg (mul_nonneg h0c (by linarith)) h0s
    · show 0 ≤ s.total_sell_amount +
        round4 (s.total_shares * p.sell_ratio) * price
      have : 0 ≤ round4 (s.total_shares * p.sell_ratio) * price :=
        mul_nonneg (le_of_lt hss) (le_of_lt hp)
      linarith
    · show s.total_invested -
          round4 (s.total_shares * p.sell_ratio) / s.total_shares *
            s.total_invested = 0 ↔
        s.total_shares - round4 (s.total_shares * p.sell_ratio) = 0
      rw [hform, div_eq_zero_iff, mul_eq_zero]
      constructor
      · rintro ((h1 | h1) | h1)
        · exact absurd h1 (ne_of_gt hc)
        · exact h1
        · exact absurd h1 hS
      · intro h1
        exact Or.inl (Or.inr h1)
    · exact hq.sub (round4_quantized _)

theorem ledgerInv_execute (p : Params) (d : ℤ) (price cash : ℚ)
    (s : StratState) (hp : 0 < price) (hinv : LedgerInv s) :
    LedgerInv (execute_investment p d price cash s) := by
  rcases execute_investment_cases p d price cash s with
    h | ⟨ma, _, _, _, hsz, h⟩
  · rw [h]; exact hinv
  · rw [h]
    obtain ⟨h0s, h0c, h0a, hiff, hq⟩ := hinv
    have hmul : 0 < round4 (availableAmount p cash price ma / price) * price :=
      mul_pos hsz hp
    refine ⟨?_, ?_, ?_, ?_, ?_⟩
    · show 0 ≤ s.total_shares +
        round4 (availableAmount p cash price ma / price)
      linarith
    · show 0 ≤ s.total_invested +
        round4 (availableAmount p cash price ma / price) * price
      linarith
    · exact h0a
    · constructor
      · intro h1
        exfalso
        have : (0:ℚ) < s.total_invested +
            round4 (availableAmount p cash price ma / price) * price := by
          linarith
        rw [show (buyUpdate s d price ma
            (round4 (availableAmount p cash price ma / price))).total_invested =
            s.total_invested +
              round4 (availableAmount p cash price ma / price) * price
            from rfl] at h1
        linarith
      · intro h1
        exfalso
        have : (0:ℚ) < s.total_shares +
            round4 (availableAmount p cash price ma / price) := by linarith
        rw [show (buyUpdate s d price ma
            (round4 (availableAmount p cash price ma / price))).total_shares =
            s.total_shares +
              round4 (availableAmount p cash price ma / price)
            from rfl] at h1
        linarith
    · exact hq.add (round4_quantized _)

theorem ledgerInv_processBars (p : Params) (bars : List Bar)
    (hr : p.sell_ratio ≤ 1) (hp : ∀ b ∈ bars, 0 < b.close) :
    LedgerInv (processBars p bars) := by
  unfold processBars
  refine foldl_nextBar_inv p LedgerInv bars initState
    ⟨le_refl 0, le_refl 0, le_refl 0, by simp [initState], quantized4_zero⟩ ?_
  intro s1 b hb h1
  have hclose : LedgerInv (afterClose s1 b) := h1
  have hap : LedgerInv (afterProfit p s1 b) :=
    ledgerInv_check p b.date b.close (afterClose s1 b) hr (hp b hb) hclose
  rcases nextBar_cases p s1 b with ⟨_, hn⟩ | ⟨_, hn⟩
  · rw [hn]
    exact ledgerInv_execute p b.date b.close b.cash (afterProfit p s1 b)
      (hp b hb) hap
  · rw [hn]; exact hap

/-- `total_shares` is always a whole multiple of `1/10000`, for every
parameterisation and bar sequence: only values of `round(_, 4)` are ever
added to or subtracted from it. -/
theorem shares_quantized (p : Params) (bars : List Bar) :
    Quantized4 (processBars p bars).total_shares := by
  unfold processBars
  refine foldl_nextBar_inv p (fun s => Quantized4 s.total_shares) bars
    initState quantized4_zero ?_
  intro s1 b _ h1
  have hap : Quantized4 (afterProfit p s1 b).total_shares := by
    unfold afterProfit
    rcases check_profit_taking_cases p b.date b.close (afterClose s1 b) with
      h | ⟨_, _, _, _, _, h⟩
    · rw [h]; exact h1
    · rw [h]
      exact Quantized4.sub h1 (round4_quantized _)
  rcases nextBar_cases p s1 b with ⟨_, hn⟩ | ⟨_, hn⟩
  · rw [hn]
    rcases execute_investment_cases p b.date b.close b.cash
      (afterProfit p s1 b) with he | ⟨ma, _, _, _, _, he⟩
    · rw [he]; exact hap
    · rw [he]
      exact Quantized4.add hap (round4_quantized _)
  · rw [hn]; exact hap

/-! ### Evaluation helpers for concrete runs -/

theorem round4_eval_down (q : ℚ) (n : ℤ) (hlo : (n : ℚ) ≤ q * 10000)
    (hhi : q * 10000 < (n : ℚ) + 1/2) : round4 q = (n : ℚ) / 10000 := by
  have hfl : ⌊q * 10000⌋ = n := by
    rw [Int.floor_eq_iff]
    constructor
    · exact hlo
    · linarith
  unfold round4 roundHalfEven
  rw [hfl]
  rw [if_pos (by linarith)]

theorem check_skip_no_shares (p : Params) (d : ℤ) (price : ℚ)
    (s : StratState) (h : ¬ 0 < s.total_shares) :
    check_profit_taking p d price s = s := by
  unfold check_profit_taking
  rw [if_neg h]

theorem check_skip_no_sell (p : Params) (d : ℤ) (price : ℚ) (s : StratState)
    (hret : ¬ p.target_return ≤ currentReturn s price) :
    check_profit_taking p d price s = s := by
  rcases check_profit_taking_cases p d price s with h | ⟨_, _, _, hr4, _, _⟩
  · exact h
  · exact absurd hr4 hret

theorem check_eval_sell (p : Params) (d : ℤ) (price : ℚ) (s : StratState)
    (hs : 0 < s.total_shares) (hc : 0 < s.total_invested)
    (hcb : cooldownBlocked p d s = false)
    (hret : p.target_return ≤ currentReturn s price)
    (hss : 0 < round4 (s.total_shares * p.sell_ratio)) :
    check_profit_taking p d price s =
      sellUpdate s d price (round4 (s.total_shares * p.sell_ratio)) := by
  unfold check_profit_taking
  rw [if_pos hs, if_pos hc, if_neg (by simp [hcb]), if_pos hret, if_pos hss]

theorem execute_eval (p : Params) (d : ℤ) (price cash : ℚ) (s : StratState)
    (ma : ℚ) (hma : smaValue p.ma_period s.closes = some ma) (h0 : ¬ ma = 0)
    (ha : 0 < availableAmount p cash price ma)
    (hs : 0 < round4 (availableAmount p cash price ma / price)) :
    execute_investment p d price cash s =
      buyUpdate s d price ma
        (round4 (availableAmount p cash price ma / price)) := by
  unfold execute_investment
  rw [hma]
  dsimp only
  rw [if_neg h0, if_pos ha, if_pos hs]

theorem nextBar_eval_first (p : Params) (s : StratState) (b : Bar)
    (h : (afterProfit p s b).last_investment_date = none) :
    nextBar p s b =
      execute_investment p b.date b.close b.cash (afterProfit p s b) := by
  unfold nextBar
  rw [h]

theorem nextBar_eval_skip (p : Params) (s : StratState) (b : Bar) (dl : ℤ)
    (h : (afterProfit p s b).last_investment_date = some dl)
    (hlt : ¬ p.investment_interval ≤ b.date - dl) :
    nextBar p s b = afterProfit p s b := by
  unfold nextBar
  rw [h]
  dsimp only
  rw [if_neg hlt]

/-- Concrete run: one bar of `bW` under `pW` produces `sW`. -/
theorem processBars_pW : processBars pW [bW] = sW := by
  have hap : afterProfit pW initState bW = afterClose initState bW :=
    check_skip_no_shares _ _ _ _ (by norm_num [afterClose, initState])
  have h1 : nextBar pW initState bW =
      execute_investment pW bW.date bW.close bW.cash
        (afterProfit pW initState bW) :=
    nextBar_eval_first _ _ _ (by rw [hap]; rfl)
  have hma : smaValue pW.ma_period (afterClose initState bW).closes =
      some 100 := by
    norm_num [smaValue, afterClose, initState, pW, bW]
  have hav : availableAmount pW bW.cash bW.close 100 = 1400 := by
    norm_num [availableAmount, pW, bW, deviationOf, get_investment_multiplier]
  have harg : availableAmount pW bW.cash bW.close 100 / bW.close = 14 := by
    rw [hav]
    norm_num [bW]
  have hsz : round4 (availableAmount pW bW.cash bW.close 100 / bW.close) =
      14 := by
    rw [harg]
    exact round4_eq_self ⟨140000, by norm_num⟩
  have hexec : execute_investment pW bW.date bW.close bW.cash
      (afterClose initState bW) =
      buyUpdate (afterClose initState bW) bW.date bW.close 100
        (round4 (availableAmount pW bW.cash bW.close 100 / bW.close)) :=
    execute_eval _ _ _ _ _ 100 hma (by norm_num)
      (by rw [hav]; norm_num) (by rw [hsz]; norm_num)
  show (List.foldl (nextBar pW) initState [bW]) = sW
  rw [List.foldl_cons, List.foldl_nil, h1, hap, hexec, hsz]
  norm_num [buyUpdate, afterClose, initState, sW, bW, deviationOf,
    get_investment_multiplier]

theorem cooldownBlocked_eq_false (p : Params) (d : ℤ) (s : StratState)
    (hcool : s.last_profit_taking_date = none ∨
      ∃ d0, s.last_profit_taking_date = some d0 ∧
        p.profit_taking_cooldown ≤ d - d0) :
    cooldownBlocked p d s = false := by
  unfold cooldownBlocked
  rcases hcool with h0 | ⟨d0, hd0, hge⟩
  · rw [h0]
  · rw [hd0]
    dsimp only
    simp only [decide_eq_false_iff_not, not_lt]
    omega

/-! ### Claim C3 -/

/-- C3: on a bar with a positive position and positive recorded cost, the
cooldown gate open, and
`(total_shares * price - total_invested) / total_invested * 100` at or
above the target, the engine sells `round(total_shares * sell_ratio, 4)`
units when that is positive (a no-op otherwise): it subtracts the sold
units from `total_shares`, the proportionally allocated cost
`(sell_shares / total_shares) * total_invested` from `total_invested`,
adds the proceeds `sell_shares * price` to `total_sell_amount`, sets
`last_profit_taking_date` to the bar's date, and appends exactly one exit
record carrying these values. -/
theorem C3_profit_taking_mechanics (p : Params) (d : ℤ) (price : ℚ)
    (s : StratState) (hs : 0 < s.total_shares) (hc : 0 < s.total_invested)
    (hcool : s.last_profit_taking_date = none ∨
      ∃ d0, s.last_profit_taking_date = some d0 ∧
        p.profit_taking_cooldown ≤ d - d0)
    (hret : p.target_return ≤
      (s.total_shares * price - s.total_invested) / s.total_invested * 100) :
    (round4 (s.total_shares * p.sell_ratio) ≤ 0 →
      check_profit_taking p d price s = s) ∧
    (0 < round4 (s.total_shares * p.sell_ratio) →
      (check_profit_taking p d price s).total_shares =
        s.total_shares - round4 (s.total_shares * p.sell_ratio) ∧
      (check_profit_taking p d price s).total_invested =
        s.total_invested - round4 (s.total_shares * p.sell_ratio) /
          s.total_shares * s.total_invested ∧
      (check_profit_taking p d price s).total_sell_amount =
        s.total_sell_amount +
          round4 (s.total_shares * p.sell_ratio) * price ∧
      (check_profit_taking p d price s).last_profit_taking_date = some d ∧
      (check_profit_taking p d price s).profit_history =
        s.profit_history ++
          [{ date := d, price := price,
             return_percent := (s.total_shares * price - s.total_invested) /
               s.total_invested * 100,
             shares_sold := round4 (s.total_shares * p.sell_ratio),
             amount_received :=
               round4 (s.total_shares * p.sell_ratio) * price,
             cost_of_sold := round4 (s.total_shares * p.sell_ratio) /
               s.total_shares * s.total_invested,
             profit := round4 (s.total_shares * p.sell_ratio) * price -
               round4 (s.total_shares * p.sell_ratio) / s.total_shares *
                 s.total_invested }]) := by
  have hcb : cooldownBlocked p d s = false := cooldownBlocked_eq_false p d s hcool
  constructor
  · intro hle
    rcases check_profit_taking_cases p d price s with h | ⟨_, _, _, _, hss, _⟩
    · exact h
    · linarith
  · intro hss
    rw [check_eval_sell p d price s hs hc hcb hret hss]
    exact ⟨rfl, rfl, rfl, rfl, rfl⟩

/-- Witness: with `pX`, `sX` (10 units at cost 1000), price 160 on day 40
the return is 60% ≥ 50%, half the position (5 units) is sold and the
exit date advances. -/
theorem C3_profit_taking_mechanics_witness :
    (check_profit_taking pX 40 160 sX).last_profit_taking_date = some 40 ∧
    (check_profit_taking pX 40 160 sX).total_shares =
      sX.total_shares - round4 (sX.total_shares * pX.sell_ratio) := by
  have h := C3_profit_taking_mechanics pX 40 160 sX (by norm_num [sX])
    (by norm_num [sX]) (Or.inl rfl) (by norm_num [sX, pX])
  have hss : 0 < round4 (sX.total_shares * pX.sell_ratio) := by
    rw [show sX.total_shares * pX.sell_ratio = (5:ℚ) by norm_num [sX, pX],
      round4_eq_self ⟨50000, by norm_num⟩]
    norm_num
  exact ⟨(h.2 hss).2.2.2.1, (h.2 hss).1⟩

/-! ### Claim C5 -/

/-- C5: with `sell_ratio = 1`, on every state reachable by processing a
bar sequence, a firing profit-taking trigger sells the entire position
and leaves `total_shares` and `total_invested` exactly 0 — no residual
dust, because the reachable `total_shares` is always a whole multiple of
1/10000, so `round(total_shares * 1.0, 4)` returns it unchanged. -/
theorem C5_full_liquidation (p : Params) (bars : List Bar) (d : ℤ)
    (price : ℚ) (hr : p.sell_ratio = 1)
    (hs : 0 < (processBars p bars).total_shares)
    (hc : 0 < (processBars p bars).total_invested)
    (hcool : (processBars p bars).last_profit_taking_date = none ∨
      ∃ d0, (processBars p bars).last_profit_taking_date = some d0 ∧
        p.profit_taking_cooldown ≤ d - d0)
    (hret : p.target_return ≤ currentReturn (processBars p bars) price) :
    (check_profit_taking p d price (processBars p bars)).total_shares = 0 ∧
    (check_profit_taking p d price (processBars p bars)).total_invested =
      0 ∧
    ∃ ev,
      (check_profit_taking p d price (processBars p bars)).profit_history =
        (processBars p bars).profit_history ++ [ev] ∧
      ev.shares_sold = (processBars p bars).total_shares := by
  have hq : Quantized4 (processBars p bars).total_shares :=
    shares_quantized p bars
  have hss : round4 ((processBars p bars).total_shares * p.sell_ratio) =
      (processBars p bars).total_shares := by
    rw [hr, mul_one]
    exact round4_eq_self hq
  have hcb : cooldownBlocked p d (processBars p bars) = false :=
    cooldownBlocked_eq_false p d _ hcool
  have hck := check_eval_sell p d price (processBars p bars) hs hc hcb hret
    (by rw [hss]; exact hs)
  rw [hss] at hck
  refine ⟨?_, ?_, ?_⟩
  · rw [hck]
    show (processBars p bars).total_shares -
      (processBars p bars).total_shares = 0
    exact sub_self _
  · rw [hck]
    show (processBars p bars).total_invested -
      (processBars p bars).total_shares / (processBars p bars).total_shares *
        (processBars p bars).total_invested = 0
    rw [div_self (ne_of_gt hs), one_mul, sub_self]
  · rw [hck]
    exact ⟨_, rfl, rfl⟩

/-- Witness: after the concrete run `processBars pW [bW]` (14 units at
cost 1400), a trigger at price 200 (return 100% ≥ 50%) with ratio 1 zeroes
both `total_shares` and `total_invested`. -/
theorem C5_full_liquidation_witness :
    (check_profit_taking pW 40 200 (processBars pW [bW])).total_shares =
      0 ∧
    (check_profit_taking pW 40 200 (processBars pW [bW])).total_invested =
      0 := by
  have h := C5_full_liquidation pW [bW] 40 200 rfl
    (by rw [processBars_pW]; norm_num [sW])
    (by rw [processBars_pW]; norm_num [sW])
    (Or.inl (by rw [processBars_pW]; rfl))
    (by rw [processBars_pW]; norm_num [currentReturn, sW, pW])
  exact ⟨h.1, h.2.1⟩

/-! ### Claim C2 -/

/-- C2: an investment attempt runs on a bar iff `last_investment_date` is
`none` or at least `investment_interval` days have passed since it; the
cadence date is set to the bar's date exactly when a purchase with positive
size completes (a skipped attempt returns the state unchanged, and profit
taking never moves the cadence date); consequently consecutive investment
records are always at least `investment_interval` days apart. -/
theorem C2_investment_cadence :
    (∀ p d price cash s,
      execute_investment p d price cash s = s ∨
      ((execute_investment p d price cash s).last_investment_date = some d ∧
        (execute_investment p d price cash s).investment_count =
          s.investment_count + 1)) ∧
    (∀ p d price s,
      (check_profit_taking p d price s).last_investment_date =
        s.last_investment_date) ∧
    (∀ p s b,
      (((afterProfit p s b).last_investment_date = none ∨
         ∃ dl, (afterProfit p s b).last_investment_date = some dl ∧
           p.investment_interval ≤ b.date - dl) ∧
        nextBar p s b =
          execute_investment p b.date b.close b.cash (afterProfit p s b)) ∨
      ((∃ dl, (afterProfit p s b).last_investment_date = some dl ∧
          b.date - dl < p.investment_interval) ∧
        nextBar p s b = afterProfit p s b)) ∧
    (∀ p bars,
      List.Chain' (fun e1 e2 => p.investment_interval ≤ e2.date - e1.date)
        (processBars p bars).investment_history) := by
  refine ⟨?_, ?_, ?_, ?_⟩
  · intro p d price cash s
    rcases execute_investment_cases p d price cash s with
      h | ⟨ma, _, _, _, _, h⟩
    · exact Or.inl h
    · rw [h]
      exact Or.inr ⟨rfl, rfl⟩
  · intro p d price s
    exact (check_profit_taking_investment_fields p d price s).2.2.1
  · intro p s b
    exact nextBar_cases p s b
  · intro p bars
    exact (cadence_ledger p bars).2

/-! ### Claim C4 -/

/-- C4: while `last_profit_taking_date` is set and fewer than
`profit_taking_cooldown` days have passed, `check_profit_taking` is a
no-op (even if the return still exceeds the target), and any two
consecutive records of `profit_history` are at least
`profit_taking_cooldown` days apart. -/
theorem C4_exit_cooldown :
    (∀ p d price s d0, s.last_profit_taking_date = some d0 →
      d - d0 < p.profit_taking_cooldown →
      check_profit_taking p d price s = s) ∧
    (∀ p bars,
      List.Chain' (fun e1 e2 => p.profit_taking_cooldown ≤ e2.date - e1.date)
        (processBars p bars).profit_history) := by
  constructor
  · intro p d price s d0 hd0 hlt
    rcases check_profit_taking_cases p d price s with
      h | ⟨_, _, hcool, _, _, h⟩
    · exact h
    · have := cooldownBlocked_false hcool d0 hd0
      omega
  · intro p bars
    exact (cooldown_ledger p bars).2

/-! ### Claim C8 -/

/-- C8: after every processed bar sequence (prices positive,
`sell_ratio ≤ 1` as the configuration requires), the position state
satisfies `total_shares ≥ 0`, `total_invested ≥ 0`,
`total_sell_amount ≥ 0`, and `total_invested` is zero exactly when
`total_shares` is zero — preserved by every investment and every exit,
including exits selling `round(total_shares * sell_ratio, 4)` units. -/
theorem C8_position_bounds (p : Params) (bars : List Bar)
    (hr : p.sell_ratio ≤ 1) (hp : ∀ b ∈ bars, 0 < b.close) :
    0 ≤ (processBars p bars).total_shares ∧
    0 ≤ (processBars p bars).total_invested ∧
    0 ≤ (processBars p bars).total_sell_amount ∧
    ((processBars p bars).total_invested = 0 ↔
      (processBars p bars).total_shares = 0) := by
  obtain ⟨h1, h2, h3, h4, _⟩ := ledgerInv_processBars p bars hr hp
  exact ⟨h1, h2, h3, h4⟩

/-- Witness: the concrete run `processBars pW [bW]` satisfies the bounds;
closes are positive and `pW.sell_ratio = 1 ≤ 1`. -/
theorem C8_position_bounds_witness :
    0 ≤ (processBars pW [bW]).total_shares ∧
    0 ≤ (processBars pW [bW]).total_invested ∧
    0 ≤ (processBars pW [bW]).total_sell_amount ∧
    ((processBars pW [bW]).total_invested = 0 ↔
      (processBars pW [bW]).total_shares = 0) :=
  C8_position_bounds pW [bW] (by norm_num [pW])
    (by
      intro b hb
      simp only [List.mem_singleton] at hb
      rw [hb]
      norm_num [bW])

/-! ### Claim C6 -/

theorem availC6 : availableAmount pC6 300 29 28 = 300 := by
  norm_num [availableAmount, pC6, deviationOf, get_investment_multiplier]

theorem round4C6 : round4 ((300:ℚ) / 29) = 10.3448 := by
  have h := round4_eval_down (300/29) 103448 (by norm_num) (by norm_num)
  rw [h]
  norm_num

theorem execC6 : execute_investment pC6 0 29 300 sC6 =
    buyUpdate sC6 0 29 28 10.3448 := by
  have hma : smaValue pC6.ma_period sC6.closes = some 28 := by
    norm_num [smaValue, sC6, pC6]
  have hsz : round4 (availableAmount pC6 300 29 28 / (29:ℚ)) = 10.3448 := by
    rw [availC6]
    exact round4C6
  have h := execute_eval pC6 0 29 300 sC6 28 hma (by norm_num)
    (by rw [availC6]; norm_num) (by rw [hsz]; norm_num)
  rw [h, hsz]

/-- C6 counterexample: the code has no whole-unit sizing mode.  At price
29 with 300 of free cash it buys `round(300/29, 4) = 10.3448` units for
299.9992 — not 10 units for 290 as the whole-unit variant of the claim
asserts. -/
theorem C6_counterexample :
    (execute_investment pC6 0 29 300 sC6).total_shares = 10.3448 ∧
    (execute_investment pC6 0 29 300 sC6).total_invested = 299.9992 ∧
    ¬ (execute_investment pC6 0 29 300 sC6).total_shares = 10 ∧
    ¬ (execute_investment pC6 0 29 300 sC6).total_invested = 290 := by
  rw [execC6]
  norm_num [buyUpdate, sC6]

/-- C6 as amended: the purchased size is always
`round(available_amount / price, 4)` — fractional 4-decimal sizing, the
only mode the code implements — where the available amount is the
requested amount clipped to free cash; with requested 1000 against free
cash 300 the available amount is exactly 300, and at price 29 the size is
10.3448 for an actual invested amount of 299.9992. -/
theorem C6_sizing :
    (∀ p d price cash s ma,
      smaValue p.ma_period s.closes = some ma → ¬ ma = 0 →
      0 < availableAmount p cash price ma →
      0 < round4 (availableAmount p cash price ma / price) →
      (execute_investment p d price cash s).total_shares =
        s.total_shares + round4 (availableAmount p cash price ma / price) ∧
      (execute_investment p d price cash s).total_invested =
        s.total_invested +
          round4 (availableAmount p cash price ma / price) * price) ∧
    availableAmount pC6 300 29 28 = 300 ∧
    round4 ((300:ℚ) / 29) = 10.3448 ∧
    (execute_investment pC6 0 29 300 sC6).total_shares = 10.3448 ∧
    (execute_investment pC6 0 29 300 sC6).total_invested = 299.9992 := by
  refine ⟨?_, availC6, round4C6, ?_, ?_⟩
  · intro p d price cash s ma hma h0 ha hsz
    rw [execute_eval p d price cash s ma hma h0 ha hsz]
    exact ⟨rfl, rfl⟩
  · rw [execC6]
    norm_num [buyUpdate, sC6]
  · rw [execC6]
    norm_num [buyUpdate, sC6]

/-! ### Claim C9 -/

/-- Concrete run: `barsC9` (dates 10 then 5, out of order) under `pC9`
produces `sC9` — processed silently, no failure of any kind. -/
theorem processBars_pC9 : processBars pC9 barsC9 = sC9 := by
  have hap1 : afterProfit pC9 initState ⟨10, 100, 1000⟩ =
      afterClose initState ⟨10, 100, 1000⟩ :=
    check_skip_no_shares _ _ _ _ (by norm_num [afterClose, initState])
  have h1 : nextBar pC9 initState ⟨10, 100, 1000⟩ =
      execute_investment pC9 10 100 1000
        (afterProfit pC9 initState ⟨10, 100, 1000⟩) :=
    nextBar_eval_first _ _ _ (by rw [hap1]; rfl)
  have hma1 : smaValue pC9.ma_period
      (afterClose initState ⟨10, 100, 1000⟩).closes = some 100 := by
    norm_num [smaValue, afterClose, initState, pC9]
  have hav1 : availableAmount pC9 1000 100 100 = 98 := by
    norm_num [availableAmount, pC9, deviationOf, get_investment_multiplier]
  have hsz1 : round4 (availableAmount pC9 1000 100 100 / (100:ℚ)) =
      0.98 := by
    rw [show availableAmount pC9 1000 100 100 / (100:ℚ) = 0.98 by
      rw [hav1]; norm_num]
    exact round4_eq_self ⟨9800, by norm_num⟩
  have hexec1 : execute_investment pC9 10 100 1000
      (afterClose initState ⟨10, 100, 1000⟩) =
      buyUpdate (afterClose initState ⟨10, 100, 1000⟩) 10 100 100
        (round4 (availableAmount pC9 1000 100 100 / 100)) :=
    execute_eval _ _ _ _ _ 100 hma1 (by norm_num)
      (by rw [hav1]; norm_num) (by rw [hsz1]; norm_num)
  have hstep1 : nextBar pC9 initState ⟨10, 100, 1000⟩ = sC9mid := by
    rw [h1, hap1, hexec1, hsz1]
    norm_num [buyUpdate, afterClose, initState, sC9mid, deviationOf,
      get_investment_multiplier]
  have hret2 : ¬ pC9.target_return ≤
      currentReturn (afterClose sC9mid ⟨5, 100, 1000⟩) 100 := by
    norm_num [currentReturn, afterClose, sC9mid, pC9]
  have hap2 : afterProfit pC9 sC9mid ⟨5, 100, 1000⟩ =
      afterClose sC9mid ⟨5, 100, 1000⟩ :=
    check_skip_no_sell _ _ _ _ hret2
  have hstep2 : nextBar pC9 sC9mid ⟨5, 100, 1000⟩ = sC9 := by
    rw [nextBar_eval_skip pC9 sC9mid ⟨5, 100, 1000⟩ 10
      (by rw [hap2]; rfl) (by norm_num [pC9]), hap2]
    rfl
  show List.foldl (nextBar pC9) initState barsC9 = sC9
  rw [show barsC9 = [⟨10, 100, 1000⟩, ⟨5, 100, 1000⟩] from rfl,
    List.foldl_cons, hstep1, List.foldl_cons, hstep2, List.foldl_nil]

/-- C9 counterexample: the engine performs no ingestion validation.  The
bar sequence `barsC9` has out-of-order dates (10 then 5), yet it is
processed to the ordinary final state `sC9` — no validation error, no
rejection of any kind anywhere in the code. -/
theorem C9_counterexample :
    ¬ List.Chain' (fun d1 d2 => d1 < d2) (barsC9.map Bar.date) ∧
    processBars pC9 barsC9 = sC9 := by
  constructor
  · intro h
    rw [show barsC9.map Bar.date = [10, 5] from rfl,
      List.chain'_cons] at h
    omega
  · exact processBars_pC9

/-- C9 as amended: the engine performs no input validation at all —
malformed bars (out-of-order dates) are processed silently, the negative
day difference simply failing the cadence gate — and the degenerate
conditions (moving average not ready, non-positive free cash, zero or
negative recorded cost basis) are silent no-ops, never surfaced errors. -/
theorem C9_silent_processing :
    (∀ p d price cash s, smaValue p.ma_period s.closes = none →
      execute_investment p d price cash s = s) ∧
    (∀ p d price cash s, cash ≤ 0 →
      execute_investment p d price cash s = s) ∧
    (∀ p d price s, s.total_invested ≤ 0 →
      check_profit_taking p d price s = s) ∧
    ¬ List.Chain' (fun d1 d2 => d1 < d2) (barsC9.map Bar.date) ∧
    (processBars pC9 barsC9).investment_count = 1 := by
  refine ⟨?_, ?_, ?_, ?_, ?_⟩
  · intro p d price cash s h
    unfold execute_investment
    rw [h]
  · intro p d price cash s h
    rcases execute_investment_cases p d price cash s with
      he | ⟨ma, _, _, hav, _, _⟩
    · exact he
    · exfalso
      unfold availableAmount at hav
      split_ifs at hav <;> linarith
  · intro p d price s h
    rcases check_profit_taking_cases p d price s with he | ⟨_, hc, _⟩
    · exact he
    · linarith
  · intro h
    rw [show barsC9.map Bar.date = [10, 5] from rfl,
      List.chain'_cons] at h
    omega
  · rw [processBars_pC9]
    rfl

/-! ### Claim C10 -/

/-- C10: `investment_count` always equals the length of
`investment_history`: both start at 0 / empty in the fresh state, the only
purchasing path increments the counter by exactly one and appends exactly
one record, profit taking touches neither, and the equality holds after
every processed bar sequence. -/
theorem C10_count_matches_history :
    initState.investment_count = 0 ∧
    initState.investment_history = [] ∧
    (∀ p d price cash s,
      execute_investment p d price cash s = s ∨
      ((execute_investment p d price cash s).investment_count =
          s.investment_count + 1 ∧
        ∃ e, (execute_investment p d price cash s).investment_history =
          s.investment_history ++ [e])) ∧
    (∀ p d price s,
      (check_profit_taking p d price s).investment_count =
          s.investment_count ∧
        (check_profit_taking p d price s).investment_history =
          s.investment_history) ∧
    (∀ p bars, (processBars p bars).investment_count =
      (processBars p bars).investment_history.length) := by
  refine ⟨rfl, rfl, ?_, ?_, ?_⟩
  · intro p d price cash s
    rcases execute_investment_cases p d price cash s with
      h | ⟨ma, _, _, _, _, h⟩
    · exact Or.inl h
    · rw [h]
      exact Or.inr ⟨rfl, ⟨_, rfl⟩⟩
  · intro p d price s
    exact ⟨(check_profit_taking_investment_fields p d price s).2.1,
      (check_profit_taking_investment_fields p d price s).2.2.2⟩
  · intro p bars
    unfold processBars
    exact foldl_nextBar_inv p
      (fun s => s.investment_count = s.investment_history.length)
      bars initState rfl (fun s1 b _ h1 => nextBar_count_len p s1 b h1)

/-! ### Claim C7 -/

/-- C7: after every processed bar sequence, `total_invested`
(the cost basis) equals the sum of `amount` over `investment_history`
minus the sum of `cost_of_sold` over `profit_history` — exactly, in the
rational model, hence within any floating tolerance. -/
theorem C7_cost_basis (p : Params) (bars : List Bar) :
    (processBars p bars).total_invested =
      ((processBars p bars).investment_history.map
        (fun e => e.amount)).sum -
      ((processBars p bars).profit_history.map
        (fun e => e.cost_of_sold)).sum :=
  cost_basis_ledger p bars

end DFA
